import Mathlib

/-!
Verification development for the evaluation-data preparation code of
`tasks.py` (bin packing of token sequences into fixed-width context
windows, windowed target construction, and batch streaming).

The Python source is shallowly embedded below.  Token ids are modelled as
`Nat`; the `np.uint16` output dtype is modelled by reducing every stored
value modulo `2^16`; a raised Python exception (ZeroDivisionError from the
padding loop's modulus, numpy broadcast ValueError from the row fill) is
modelled by `Option.none`.
-/

/-- The dummy/pad token id, `dummy_token = 1` in `bin_pack`. -/
def dummy_token : Nat := 1

/-- One iteration of the packing loop body of `bin_pack`
(`tasks.py` lines 51-55): if there are no bins yet, or the last bin plus
the document plus one eos marker would exceed `n_ctx`, start a new empty
bin; then extend the last bin with the document's tokens and append the
eos marker. -/
def binsStep (n_ctx eos : Nat) (bins : List (List Nat)) (a : List Nat) : List (List Nat) :=
  let bs := if bins = [] ∨ n_ctx < (bins.getLastD []).length + a.length + 1
            then bins ++ [[]] else bins
  bs.dropLast ++ [bs.getLastD [] ++ a ++ [eos]]

/-- The bins list built by the `for a in tokens_data` loop of `bin_pack`,
starting from the empty list. -/
def binsOf (n_ctx eos : Nat) (docs : List (List Nat)) : List (List Nat) :=
  docs.foldl (binsStep n_ctx eos) []

/-- The bins list after the padding loop
`while len(bins) % pad_batch_size != 0: bins.append([])` of `bin_pack`
(lines 56-57), for a positive batch size: exactly
`(pad - len % pad) % pad` empty bins are appended. -/
def padBinsList (pad : Nat) (bins : List (List Nat)) : List (List Nat) :=
  bins ++ List.replicate ((pad - bins.length % pad) % pad) []

/-- Writing one bin into a row of the `np.full((len(bins), n_ctx), 1,
dtype=np.uint16)` matrix (lines 58-60): positions `0..len(b)-1` receive the
bin's values reduced modulo `2^16` (uint16 storage), the rest stay the
dummy token.  When `len(b) > n_ctx` the numpy slice assignment
`bins_array[i, 0:len(b)] = b` fails with a broadcast error, modelled by
`none`. -/
def fillRow (n_ctx : Nat) (b : List Nat) : Option (List Nat) :=
  if b.length ≤ n_ctx
  then some (b.map (fun v => v % 65536) ++ List.replicate (n_ctx - b.length) dummy_token)
  else none

/-- Filling every row of the output matrix in order; the first failing row
aborts the whole fill. -/
def fillRows (n_ctx : Nat) : List (List Nat) → Option (List (List Nat))
  | [] => some []
  | b :: bs =>
    match fillRow n_ctx b, fillRows n_ctx bs with
    | some r, some rs => some (r :: rs)
    | _, _ => none

/-- `bin_pack(params, tokens_data)` (lines 45-61).  `eos_id` is
`params['eos_id']`, `n_ctx` is `params['n_ctx']`, `pad` is
`params['eval_batch_size']`.  When `pad = 0` the padding loop's
`len(bins) % pad_batch_size` raises ZeroDivisionError (`none`). -/
def bin_pack (eos_id n_ctx pad : Nat) (docs : List (List Nat)) : Option (List (List Nat)) :=
  if pad = 0 then none
  else fillRows n_ctx (padBinsList pad (binsOf n_ctx eos_id docs))

/-- The eos marker computed inside `lambada_input` / `wikitext_input`
(lines 117 and 189): `50256 if params['n_vocab'] >= 50257 else 0`. -/
def derivedEos (n_vocab : Nat) : Nat := if 50257 ≤ n_vocab then 50256 else 0

/-- The window target deriver `_get_output` of `lambada_input` /
`wikitext_input` (lines 124-134): `target[i] = bin[(i+1) % n_ctx]` when
`bin[(i+2) % n_ctx] == eos`, else `eos`. -/
def getOutput (n_ctx eos : Nat) (bin : List Nat) : List Nat :=
  (List.range n_ctx).map (fun i =>
    if bin.getD ((i + 2) % n_ctx) 0 = eos then bin.getD ((i + 1) % n_ctx) 0 else eos)

/-- The mapped dataset built by `lambada_input` (lines 116-136) before
batching: each packed row is paired with its derived target, the deriver
using `derivedEos n_vocab`, while packing uses `params['eos_id']`. -/
def lambadaDataset (n_vocab eos_id n_ctx pad : Nat) (docs : List (List Nat)) :
    Option (List (List Nat × List Nat)) :=
  (bin_pack eos_id n_ctx pad docs).map
    (fun rows => rows.map (fun r => (r, getOutput n_ctx (derivedEos n_vocab) r)))

/-- `dataset.batch(batch_size, drop_remainder=True)` (line 137), with fuel
bounded by the row count: consecutive groups of `bs` rows, any trailing
group shorter than `bs` dropped. -/
def chunkFuel {α : Type} (bs : Nat) : Nat → List α → List (List α)
  | 0, _ => []
  | Nat.succ f, rows =>
    if 0 < bs ∧ bs ≤ rows.length then rows.take bs :: chunkFuel bs f (rows.drop bs)
    else []

/-- The batch stream's finite pass: partition rows into consecutive groups
of `bs`, dropping the trailing short group. -/
def batchRows {α : Type} (bs : Nat) (rows : List α) : List (List α) :=
  chunkFuel bs rows.length rows

/-- `dataset.repeat()` (line 138): the infinite stream cycles through the
batches in order. -/
def repeatStream {α : Type} (chunks : List α) (k : Nat) : Option α :=
  chunks[k % chunks.length]?

/-- `params['lambada_n_steps'] = len(bins_array) // params['eval_batch_size']`
(line 72). -/
def lambada_n_steps (binsArray : List (List Nat)) (batch : Nat) : Nat :=
  binsArray.length / batch

/-! ## Helper lemmas about the matrix fill -/

theorem fillRows_length (n_ctx : Nat) :
    ∀ (l m : List (List Nat)), fillRows n_ctx l = some m → m.length = l.length := by
  intro l
  induction l with
  | nil => intro m h; simp [fillRows] at h; simp [← h]
  | cons b bs ih =>
    intro m h
    simp only [fillRows] at h
    cases hfb : fillRow n_ctx b with
    | none => rw [hfb] at h; simp at h
    | some r =>
      cases hfs : fillRows n_ctx bs with
      | none => rw [hfb, hfs] at h; simp at h
      | some rs =>
        rw [hfb, hfs] at h
        simp only [Option.some.injEq] at h
        subst h
        simp [ih rs hfs]

theorem fillRows_get (n_ctx : Nat) :
    ∀ (l m : List (List Nat)), fillRows n_ctx l = some m →
      ∀ i : Nat, m[i]? = (l[i]?).bind (fillRow n_ctx) := by
  intro l
  induction l with
  | nil => intro m h i; simp [fillRows] at h; subst h; simp
  | cons b bs ih =>
    intro m h i
    simp only [fillRows] at h
    cases hfb : fillRow n_ctx b with
    | none => rw [hfb] at h; simp at h
    | some r =>
      cases hfs : fillRows n_ctx bs with
      | none => rw [hfb, hfs] at h; simp at h
      | some rs =>
        rw [hfb, hfs] at h
        simp only [Option.some.injEq] at h
        subst h
        cases i with
        | zero => simp [hfb]
        | succ j => simpa using ih rs hfs j

/-- For a successful pack, row `i` of the matrix is bin `i` of the padded
bins list, reduced modulo `2^16` and right-padded with the dummy token;
in particular that bin fits in the context width. -/
theorem bin_pack_row (eos n_ctx pad : Nat) (docs : List (List Nat))
    (m : List (List Nat)) (i : Nat) (b : List Nat)
    (hm : bin_pack eos n_ctx pad docs = some m)
    (hb : (padBinsList pad (binsOf n_ctx eos docs))[i]? = some b) :
    b.length ≤ n_ctx ∧
      m[i]? = some (b.map (fun v => v % 65536) ++
        List.replicate (n_ctx - b.length) dummy_token) := by
  unfold bin_pack at hm
  by_cases hp : pad = 0
  · rw [if_pos hp] at hm; exact absurd hm (by simp)
  · rw [if_neg hp] at hm
    have hget := fillRows_get n_ctx _ m hm i
    rw [hb] at hget
    replace hget : m[i]? = fillRow n_ctx b := hget
    have hlt : i < (padBinsList pad (binsOf n_ctx eos docs)).length := by
      by_contra hge
      rw [List.getElem?_eq_none_iff.mpr (by omega)] at hb
      exact absurd hb (by simp)
    have hlt' : i < m.length := by
      rw [fillRows_length n_ctx _ m hm]; exact hlt
    by_cases hfit : b.length ≤ n_ctx
    · refine ⟨hfit, ?_⟩
      rw [hget]
      simp [fillRow, hfit]
    · exfalso
      rw [List.getElem?_eq_getElem hlt'] at hget
      simp [fillRow, hfit] at hget

theorem pad_total_mod (pad len : Nat) (hp : 0 < pad) :
    (len + (pad - len % pad) % pad) % pad = 0 := by
  rcases Nat.eq_zero_or_pos (len % pad) with h | h
  · rw [h, Nat.sub_zero, Nat.mod_self, Nat.add_zero]
    exact h
  · have hlt : len % pad < pad := Nat.mod_lt _ hp
    have h1 : (pad - len % pad) % pad = pad - len % pad := Nat.mod_eq_of_lt (by omega)
    rw [h1, Nat.add_mod, h1]
    have h2 : len % pad + (pad - len % pad) = pad := by omega
    rw [h2, Nat.mod_self]

/-! ## The claims -/

/-- Claim C3 (counterexample): for the empty document list and
`batch_multiple = 4`, `bin_pack` succeeds but returns a matrix with zero
rows, not at least 4 rows — the padding loop never runs because
`0 % 4 = 0`. -/
theorem bin_pack_empty_cex :
    bin_pack 0 4 4 [] = some [] ∧ ¬ 4 ≤ ([] : List (List Nat)).length := by decide

/-- Claim C3 (amended): for an empty document list and any
`batch_multiple ≥ 1`, packing does not fail and returns a matrix with
zero rows: `0` is already a multiple of `batch_multiple`, so the padding
loop appends nothing. -/
theorem bin_pack_empty_docs (eos n_ctx pad : Nat) (hpad : 1 ≤ pad) :
    bin_pack eos n_ctx pad [] = some [] := by
  have hp : pad ≠ 0 := by omega
  unfold bin_pack
  rw [if_neg hp]
  have h1 : binsOf n_ctx eos [] = [] := rfl
  rw [h1]
  simp [padBinsList, Nat.mod_self, fillRows]

/-- Witness for the amended C3 at `eos = 0`, `n_ctx = 4`,
`batch_multiple = 4`. -/
theorem bin_pack_empty_docs_witness :
    1 ≤ 4 ∧ bin_pack 0 4 4 [] = some [] :=
  ⟨by decide, bin_pack_empty_docs 0 4 4 (by decide)⟩

/-- Claim C4 (counterexample): a single document `[5,6,7]` with
`n_ctx = 2` is packed into the oversized intermediate bin `[5,6,7,9]`,
but `bin_pack` then fails (numpy broadcast error on the row fill) instead
of silently returning an oversized bin in the output matrix. -/
theorem bin_pack_oversized_cex :
    binsOf 2 9 [[5, 6, 7]] = [[5, 6, 7, 9]] ∧ bin_pack 9 2 1 [[5, 6, 7]] = none := by decide

/-- Claim C4 (amended): for a single document whose tokens plus eos
marker exceed `context_width`, the packer neither splits nor truncates
it — the intermediate bin is the whole document plus the marker and does
exceed `context_width` — but the final matrix fill then raises a
broadcast error (modelled `none`) rather than returning the oversized
row. -/
theorem bin_pack_oversized_no_split (eos n_ctx pad : Nat) (a : List Nat)
    (hpad : 1 ≤ pad) (hbig : n_ctx < a.length + 1) :
    binsOf n_ctx eos [a] = [a ++ [eos]] ∧
      n_ctx < (a ++ [eos]).length ∧ bin_pack eos n_ctx pad [a] = none := by
  have h1 : binsOf n_ctx eos [a] = [a ++ [eos]] := rfl
  have hlen : (a ++ [eos]).length = a.length + 1 := by simp
  refine ⟨h1, by omega, ?_⟩
  have hp : pad ≠ 0 := by omega
  unfold bin_pack
  rw [if_neg hp, h1]
  have hno : fillRow n_ctx (a ++ [eos]) = none := by
    rw [fillRow, if_neg]
    omega
  simp [padBinsList, fillRows, hno]

/-- Witness for the amended C4 at `eos = 9`, `n_ctx = 2`, `pad = 1`,
document `[5,6,7]`. -/
theorem bin_pack_oversized_no_split_witness :
    (1 ≤ 1 ∧ 2 < 3 + 1) ∧
      (binsOf 2 9 [[5, 6, 7]] = [[5, 6, 7] ++ [9]] ∧
        2 < ([5, 6, 7] ++ [9]).length ∧ bin_pack 9 2 1 [[5, 6, 7]] = none) :=
  ⟨by decide, bin_pack_oversized_no_split 9 2 1 [5, 6, 7] (by decide) (by decide)⟩

/-- Claim C5 (counterexample): with `context_width = 0 ≤ 0` (and
`batch_multiple = 1`) on the empty document list, `bin_pack` does not
fail at all — it returns an empty matrix — so packing does not fail
whenever `context_width ≤ 0`. -/
theorem bin_pack_no_validation_cex :
    (0 : Nat) ≤ 0 ∧ bin_pack 0 0 1 [] = some [] := by decide

/-- Claim C5 (amended): `bin_pack` performs no parameter validation and
never raises a `ConfigurationError` (no such error exists in the code).
With `batch_multiple = 0` every call fails, but with a ZeroDivisionError
from the padding loop's `len(bins) % pad_batch_size`; with
`context_width = 0` and empty input the call succeeds. -/
theorem bin_pack_no_validation :
    (∀ eos n_ctx docs, bin_pack eos n_ctx 0 docs = none) ∧
      bin_pack 0 0 1 [] = some [] :=
  ⟨fun eos n_ctx docs => by simp [bin_pack], by decide⟩

/-- Claim C7: for every document list and `batch_multiple ≥ 1`, a
successfully packed matrix has a row count that is a multiple of
`batch_multiple`, and every row appended beyond the packed bins is a
fully-dummy row. -/
theorem bin_pack_pad_multiple (eos n_ctx pad : Nat) (docs : List (List Nat))
    (m : List (List Nat)) (hpad : 1 ≤ pad)
    (hm : bin_pack eos n_ctx pad docs = some m) :
    m.length % pad = 0 ∧
      ∀ i r, (binsOf n_ctx eos docs).length ≤ i → m[i]? = some r →
        r = List.replicate n_ctx dummy_token := by
  have hp : pad ≠ 0 := by omega
  have hm0 := hm
  unfold bin_pack at hm
  rw [if_neg hp] at hm
  have hmlen : m.length = (padBinsList pad (binsOf n_ctx eos docs)).length :=
    fillRows_length n_ctx _ m hm
  constructor
  · rw [hmlen, padBinsList, List.length_append, List.length_replicate]
    exact pad_total_mod pad (binsOf n_ctx eos docs).length (by omega)
  · intro i r hi hr
    have hi' : i < m.length := by
      by_contra hge
      rw [List.getElem?_eq_none_iff.mpr (by omega)] at hr
      exact absurd hr (by simp)
    have hb : (padBinsList pad (binsOf n_ctx eos docs))[i]? = some [] := by
      rw [padBinsList, List.getElem?_append_right hi, List.getElem?_replicate, if_pos]
      rw [hmlen, padBinsList, List.length_append, List.length_replicate] at hi'
      omega
    have hrow := (bin_pack_row eos n_ctx pad docs m i [] hm0 hb).2
    simp only [List.map_nil, List.length_nil, Nat.sub_zero, List.nil_append] at hrow
    rw [hr] at hrow
    exact (Option.some.injEq _ _).mp hrow

/-- Witness for C7 at `eos = 0`, `n_ctx = 2`, `batch_multiple = 4`,
documents `[[5]]`. -/
theorem bin_pack_pad_multiple_witness :
    (1 ≤ 4 ∧ bin_pack 0 2 4 [[5]] = some [[5, 0], [1, 1], [1, 1], [1, 1]]) ∧
      (([[5, 0], [1, 1], [1, 1], [1, 1]] : List (List Nat)).length % 4 = 0 ∧
        ∀ i r, (binsOf 2 0 [[5]]).length ≤ i →
          ([[5, 0], [1, 1], [1, 1], [1, 1]] : List (List Nat))[i]? = some r →
          r = List.replicate 2 dummy_token) :=
  ⟨⟨by decide, by decide⟩,
    bin_pack_pad_multiple 0 2 4 [[5]] [[5, 0], [1, 1], [1, 1], [1, 1]]
      (by decide) (by decide)⟩

/-- Claim C8 (counterexample): the bin for document `[70000]` is
`[70000, 0]`, but the stored row is `[4464, 0]` — position `0`, which is
before the bin's content length, holds `70000 % 2^16 = 4464`, not the
bin's token `70000`, because the matrix dtype is `np.uint16`. -/
theorem bin_pack_layout_cex :
    bin_pack 0 2 1 [[70000]] = some [[4464, 0]] ∧
      binsOf 2 0 [[70000]] = [[70000, 0]] ∧ (4464 : Nat) ≠ 70000 := by decide

/-- Claim C8 (amended): in the packed matrix, each row holds its bin's
values reduced modulo `2^16` (equal to the tokens whenever every id is
below `65536`) in order from column 0, followed by exactly the dummy
token id `1` at every position at or beyond the bin's content length. -/
theorem bin_pack_row_layout (eos n_ctx pad : Nat) (docs : List (List Nat))
    (m : List (List Nat)) (i : Nat) (b : List Nat)
    (hm : bin_pack eos n_ctx pad docs = some m)
    (hb : (padBinsList pad (binsOf n_ctx eos docs))[i]? = some b) :
    m[i]? = some (b.map (fun v => v % 65536) ++
      List.replicate (n_ctx - b.length) dummy_token) :=
  (bin_pack_row eos n_ctx pad docs m i b hm hb).2

/-- Witness for the amended C8 at the `[[70000]]` example. -/
theorem bin_pack_row_layout_witness :
    bin_pack 0 2 1 [[70000]] = some [[4464, 0]] ∧
      (padBinsList 1 (binsOf 2 0 [[70000]]))[0]? = some [70000, 0] ∧
      ([[4464, 0]] : List (List Nat))[0]? =
        some ([70000, 0].map (fun v => v % 65536) ++
          List.replicate (2 - [70000, 0].length) dummy_token) :=
  ⟨by decide, by decide,
    bin_pack_row_layout 0 2 1 [[70000]] [[4464, 0]] 0 [70000, 0] (by decide) (by decide)⟩

/-- Claim C9: the eos marker used by the window target deriver in
`lambada_input` is `derivedEos n_vocab = 50256` when `n_vocab ≥ 50257`
and `0` otherwise, computed from the vocabulary size alone and not from
`params['eos_id']`; packing, by contrast, separates documents with
`params['eos_id']`.  Concretely, with `n_vocab = 50257` and
`eos_id = 0`, packing `[[5]]` separates with `0` but every target
position is masked with `50256`; had the deriver used the packing
marker `0` it would have produced `[0, 0, 0, 5]` instead. -/
theorem lambada_eos_mismatch :
    ∀ n_vocab eos_id n_ctx pad docs,
      (derivedEos n_vocab = if 50257 ≤ n_vocab then 50256 else 0)
      ∧ (lambadaDataset n_vocab eos_id n_ctx pad docs
          = (bin_pack eos_id n_ctx pad docs).map
              (fun rows => rows.map (fun r => (r, getOutput n_ctx (derivedEos n_vocab) r))))
      ∧ (∀ e', lambadaDataset n_vocab e' n_ctx pad docs
          = (bin_pack e' n_ctx pad docs).map
              (fun rows => rows.map (fun r => (r, getOutput n_ctx (derivedEos n_vocab) r))))
      ∧ (∀ a : List Nat, binsOf n_ctx eos_id [a] = [a ++ [eos_id]])
      ∧ lambadaDataset 50257 0 4 1 [[5]]
          = some [([5, 0, 1, 1], [50256, 50256, 50256, 50256])]
      ∧ getOutput 4 0 [5, 0, 1, 1] = [0, 0, 0, 5] :=
  fun n_vocab eos_id n_ctx pad docs =>
    ⟨rfl, rfl, fun e' => rfl, fun a => rfl, by decide, by decide⟩

/-- Claim C10: the packed matrix has 16-bit unsigned entries — every
stored value is the written value reduced modulo `2^16`, so ids at or
above `65536` are silently wrapped; e.g. `65537` is stored as `1`. -/
theorem bin_pack_uint16 :
    (∀ (eos n_ctx pad : Nat) (docs m : List (List Nat)) (i : Nat)
        (b : List Nat) (j : Nat),
        bin_pack eos n_ctx pad docs = some m →
        (padBinsList pad (binsOf n_ctx eos docs))[i]? = some b →
        j < b.length →
        ∃ r, m[i]? = some r ∧ r[j]? = some (b.getD j 0 % 65536)) ∧
      bin_pack 0 2 1 [[65537]] = some [[1, 0]] := by
  constructor
  · intro eos n_ctx pad docs m i b j hm hb hj
    refine ⟨_, (bin_pack_row eos n_ctx pad docs m i b hm hb).2, ?_⟩
    rw [List.getElem?_append_left (by simpa using hj), List.getElem?_map,
      List.getElem?_eq_getElem hj]
    rw [List.getD_eq_getElem b 0 hj]
    rfl
  · decide

/-- Witness for C10 at the `[[65537]]` example. -/
theorem bin_pack_uint16_witness :
    (bin_pack 0 2 1 [[65537]] = some [[1, 0]] ∧
      (padBinsList 1 (binsOf 2 0 [[65537]]))[0]? = some [65537, 0] ∧
      (0 : Nat) < [65537, 0].length) ∧
      ∃ r, ([[1, 0]] : List (List Nat))[0]? = some r ∧
        r[0]? = some ([65537, 0].getD 0 0 % 65536) :=
  ⟨⟨by decide, by decide, by decide⟩,
    bin_pack_uint16.1 0 2 1 [[65537]] [[1, 0]] 0 [65537, 0] 0
      (by decide) (by decide) (by decide)⟩

/-- Evaluating the window target deriver at one position: the `tf.where` /
`tf.gather` pipeline of `_get_output` yields, at position `i < n_ctx`,
`bin[(i+1) % n_ctx]` when `bin[(i+2) % n_ctx]` is the eos marker and the
eos marker otherwise. -/
theorem getOutput_get (n eos : Nat) (bin : List Nat) (i : Nat) (hi : i < n) :
    (getOutput n eos bin)[i]? =
      some (if bin.getD ((i + 2) % n) 0 = eos then bin.getD ((i + 1) % n) 0 else eos) := by
  unfold getOutput
  rw [List.getElem?_map, List.getElem?_range hi]
  rfl

/-- Reading position `j` of a row that is all `d` except one `e` set at
position `k`. -/
theorem set_replicate_getD (n d e k j : Nat) (hj : j < n) :
    ((List.replicate n d).set k e).getD j 0 = if j = k then e else d := by
  have hlen : ((List.replicate n d).set k e).length = n := by simp
  rw [List.getD_eq_getElem _ 0 (by omega), List.getElem_set]
  by_cases h : j = k
  · simp [h]
  · rw [if_neg (fun hkj => h hkj.symm), if_neg h, List.getElem_replicate]

/-- Claim C1: for every bin row of length `n_ctx` and every position
`i < n_ctx`, the derived target is `bin[(i+1) mod n_ctx]` when
`bin[(i+2) mod n_ctx]` equals the eos marker and the eos marker otherwise,
with circular wraparound at every position; and for a row that is all
dummy tokens except a single eos marker at position `k` (eos distinct
from the dummy), the target is the eos marker everywhere except at
position `(k-2) mod n_ctx`, where it is `bin[(k-1) mod n_ctx]`
(subtraction taken circularly as `(k + n_ctx - 2) mod n_ctx` and
`(k + n_ctx - 1) mod n_ctx`). -/
theorem lambada_target_rule :
    (∀ (n_ctx eos : Nat) (bin : List Nat), bin.length = n_ctx →
      ∀ i, i < n_ctx →
        (getOutput n_ctx eos bin)[i]? =
          some (if bin.getD ((i + 2) % n_ctx) 0 = eos
                then bin.getD ((i + 1) % n_ctx) 0 else eos)) ∧
    (∀ (n_ctx d eos k : Nat), k < n_ctx → eos ≠ d →
      ∀ i, i < n_ctx →
        (getOutput n_ctx eos ((List.replicate n_ctx d).set k eos))[i]? =
          some (if i = (k + n_ctx - 2) % n_ctx
                then ((List.replicate n_ctx d).set k eos).getD ((k + n_ctx - 1) % n_ctx) 0
                else eos)) := by
  constructor
  · intro n eos bin _ i hi
    exact getOutput_get n eos bin i hi
  · intro n d e k hk hne i hi
    rw [getOutput_get n e _ i hi]
    have hn : 0 < n := by omega
    have h2 : (i + 2) % n < n := Nat.mod_lt _ hn
    rw [set_replicate_getD n d e k _ h2]
    rcases Nat.lt_or_ge n 2 with hsmall | hbig
    · have hn1 : n = 1 := by omega
      subst hn1
      have hk0 : k = 0 := by omega
      have hi0 : i = 0 := by omega
      subst hk0
      subst hi0
      have hb0 : ((List.replicate 1 d).set 0 e).getD 0 0 = e := by
        rw [set_replicate_getD 1 d e 0 0 (by omega)]
        simp
      norm_num [hb0]
    · have base : ((k + n - 2) + 2) % n = k := by
        have he : (k + n - 2) + 2 = k + n := by omega
        rw [he, Nat.add_mod_right, Nat.mod_eq_of_lt hk]
      have hiff : (i + 2) % n = k ↔ i = (k + n - 2) % n := by
        constructor
        · intro h
          have hcong : Nat.ModEq n (i + 2) ((k + n - 2) + 2) := by
            unfold Nat.ModEq
            rw [h, base]
          have hcan : Nat.ModEq n i (k + n - 2) := Nat.ModEq.add_right_cancel' 2 hcong
          have hmods : i % n = (k + n - 2) % n := hcan
          rwa [Nat.mod_eq_of_lt hi] at hmods
        · intro h
          rw [h, Nat.mod_add_mod, base]
      by_cases hc : (i + 2) % n = k
      · rw [if_pos (by rw [if_pos hc]), if_pos (hiff.mp hc)]
        have hidx : (i + 1) % n = (k + n - 1) % n := by
          rw [hiff.mp hc, Nat.mod_add_mod]
          congr 1
          omega
        rw [hidx]
      · rw [if_neg hc, if_neg (fun h => hne h.symm),
          if_neg (fun h => hc (hiff.mpr h))]

/-- Witness for C1: row `[5,0,1,1]` with eos `0` at position `3`, and the
single-eos row `[7,7,0,7]` (`k = 2`) at position `0`. -/
theorem lambada_target_rule_witness :
    (([5, 0, 1, 1] : List Nat).length = 4 ∧ (3 : Nat) < 4 ∧
      (getOutput 4 0 [5, 0, 1, 1])[3]? =
        some (if [5, 0, 1, 1].getD ((3 + 2) % 4) 0 = 0
              then [5, 0, 1, 1].getD ((3 + 1) % 4) 0 else 0)) ∧
    ((2 : Nat) < 4 ∧ (0 : Nat) ≠ 7 ∧ (0 : Nat) < 4 ∧
      (getOutput 4 0 ((List.replicate 4 7).set 2 0))[0]? =
        some (if 0 = (2 + 4 - 2) % 4
              then ((List.replicate 4 7).set 2 0).getD ((2 + 4 - 1) % 4) 0 else 0)) :=
  ⟨⟨by decide, by decide,
      lambada_target_rule.1 4 0 [5, 0, 1, 1] (by decide) 3 (by decide)⟩,
    ⟨by decide, by decide, by decide,
      lambada_target_rule.2 4 7 0 2 (by decide) (by decide) 0 (by decide)⟩⟩

/-! ## Packing loop lemmas -/

theorem dropLast_append_getLastD {α : Type} :
    ∀ (l : List α) (d : α), l ≠ [] → l.dropLast ++ [l.getLastD d] = l
  | [], d, h => absurd rfl h
  | [_], _, _ => rfl
  | x :: y :: ys, d, _ => by
    show x :: ((y :: ys).dropLast ++ [(y :: ys).getLastD x]) = x :: y :: ys
    rw [dropLast_append_getLastD (y :: ys) x (by simp)]

theorem mem_of_mem_dropLast {α : Type} :
    ∀ (l : List α) (x : α), x ∈ l.dropLast → x ∈ l
  | [], _, h => by simp at h
  | [_], _, h => by simp at h
  | a :: b :: t, x, h => by
    rcases List.mem_cons.mp h with h' | h'
    · exact List.mem_cons.mpr (Or.inl h')
    · exact List.mem_cons.mpr (Or.inr (mem_of_mem_dropLast (b :: t) x h'))

/-- When the packing loop's condition holds (no bins yet, or the last bin
would overflow), the step appends the document plus its eos marker as a
fresh bin. -/
theorem binsStep_new (n_ctx eos : Nat) (bins : List (List Nat)) (a : List Nat)
    (h : bins = [] ∨ n_ctx < (bins.getLastD []).length + a.length + 1) :
    binsStep n_ctx eos bins a = bins ++ [a ++ [eos]] := by
  unfold binsStep
  rw [if_pos h]
  show (bins ++ [[]]).dropLast ++ [(bins ++ [[]]).getLastD [] ++ a ++ [eos]] =
    bins ++ [a ++ [eos]]
  rw [List.dropLast_concat, List.getLastD_concat]
  simp

/-- When the condition fails, the step extends the last bin with the
document's tokens followed by one eos marker. -/
theorem binsStep_grow (n_ctx eos : Nat) (bins : List (List Nat)) (a : List Nat)
    (h1 : bins ≠ []) (h2 : (bins.getLastD []).length + a.length + 1 ≤ n_ctx) :
    binsStep n_ctx eos bins a =
      bins.dropLast ++ [bins.getLastD [] ++ a ++ [eos]] := by
  unfold binsStep
  rw [if_neg]
  push_neg
  exact ⟨h1, by omega⟩

/-- Each loop step adds exactly the document's tokens and one eos marker
to the total content, in order. -/
theorem binsStep_flatten (n_ctx eos : Nat) (bins : List (List Nat)) (a : List Nat) :
    (binsStep n_ctx eos bins a).flatten = bins.flatten ++ a ++ [eos] := by
  by_cases h : bins = [] ∨ n_ctx < (bins.getLastD []).length + a.length + 1
  · rw [binsStep_new n_ctx eos bins a h, List.flatten_append]
    simp [List.append_assoc]
  · push_neg at h
    obtain ⟨h1, h2⟩ := h
    rw [binsStep_grow n_ctx eos bins a h1 (by omega)]
    conv_rhs => rw [← dropLast_append_getLastD bins [] h1]
    rw [List.flatten_append, List.flatten_append]
    simp [List.append_assoc]

/-- Each loop step keeps every bin within the context width, provided the
incoming document fits in a fresh bin. -/
theorem binsStep_le (n_ctx eos : Nat) (bins : List (List Nat)) (a : List Nat)
    (hb : ∀ b ∈ bins, b.length ≤ n_ctx) (ha : a.length + 1 ≤ n_ctx) :
    ∀ b ∈ binsStep n_ctx eos bins a, b.length ≤ n_ctx := by
  by_cases h : bins = [] ∨ n_ctx < (bins.getLastD []).length + a.length + 1
  · rw [binsStep_new n_ctx eos bins a h]
    intro b hmem
    rcases List.mem_append.mp hmem with h' | h'
    · exact hb b h'
    · simp only [List.mem_singleton] at h'
      subst h'
      simp only [List.length_append, List.length_singleton]
      omega
  · push_neg at h
    obtain ⟨h1, h2⟩ := h
    rw [binsStep_grow n_ctx eos bins a h1 (by omega)]
    intro b hmem
    rcases List.mem_append.mp hmem with h' | h'
    · exact hb b (mem_of_mem_dropLast bins b h')
    · simp only [List.mem_singleton] at h'
      subst h'
      simp only [List.length_append, List.length_singleton]
      omega

theorem binsOf_foldl_le (n_ctx eos : Nat) :
    ∀ (docs bins : List (List Nat)),
      (∀ b ∈ bins, b.length ≤ n_ctx) → (∀ a ∈ docs, a.length + 1 ≤ n_ctx) →
      ∀ b ∈ docs.foldl (binsStep n_ctx eos) bins, b.length ≤ n_ctx := by
  intro docs
  induction docs with
  | nil => intro bins hb _ b hmem; exact hb b hmem
  | cons a docs ih =>
    intro bins hb hdocs b hmem
    exact ih (binsStep n_ctx eos bins a)
      (binsStep_le n_ctx eos bins a hb (hdocs a (List.mem_cons_self a docs)))
      (fun x hx => hdocs x (List.mem_cons_of_mem a hx)) b hmem

theorem binsOf_foldl_flatten (n_ctx eos : Nat) :
    ∀ (docs bins : List (List Nat)),
      (docs.foldl (binsStep n_ctx eos) bins).flatten =
        bins.flatten ++ (docs.map (fun a => a ++ [eos])).flatten := by
  intro docs
  induction docs with
  | nil => intro bins; simp
  | cons a docs ih =>
    intro bins
    rw [List.foldl_cons, ih (binsStep n_ctx eos bins a), binsStep_flatten]
    simp [List.append_assoc]

/-- Claim C2: when every document plus one eos marker fits in the context
width, packing processes documents in source order, never splits a
document across bins, appends exactly one eos marker after each document
(the packed content is exactly the concatenation of the documents each
followed by the marker), starts a new bin exactly when there is no bin
yet or the current bin would overflow, and every resulting bin has length
at most `context_width`. -/
theorem bin_pack_no_split (n_ctx eos : Nat) (docs : List (List Nat))
    (hdocs : ∀ a ∈ docs, a.length + 1 ≤ n_ctx) :
    (∀ b ∈ binsOf n_ctx eos docs, b.length ≤ n_ctx) ∧
      (binsOf n_ctx eos docs).flatten = (docs.map (fun a => a ++ [eos])).flatten ∧
      (∀ (docs' : List (List Nat)) (a : List Nat),
        binsOf n_ctx eos (docs' ++ [a]) =
          if binsOf n_ctx eos docs' = []
              ∨ n_ctx < ((binsOf n_ctx eos docs').getLastD []).length + a.length + 1
          then binsOf n_ctx eos docs' ++ [a ++ [eos]]
          else (binsOf n_ctx eos docs').dropLast ++
            [(binsOf n_ctx eos docs').getLastD [] ++ a ++ [eos]]) := by
  refine ⟨binsOf_foldl_le n_ctx eos docs [] (by simp) hdocs, ?_, ?_⟩
  · have h := binsOf_foldl_flatten n_ctx eos docs []
    simpa [binsOf] using h
  · intro docs' a
    unfold binsOf
    rw [List.foldl_append, List.foldl_cons, List.foldl_nil]
    by_cases h : docs'.foldl (binsStep n_ctx eos) [] = []
        ∨ n_ctx < ((docs'.foldl (binsStep n_ctx eos) []).getLastD []).length + a.length + 1
    · rw [if_pos h, binsStep_new n_ctx eos _ a h]
    · push_neg at h
      rw [if_neg (by push_neg; exact ⟨h.1, h.2⟩),
        binsStep_grow n_ctx eos _ a h.1 (by omega)]

/-- Witness for C2 at `n_ctx = 4`, `eos = 0`, documents `[[5,6],[7]]`
(every document fits: `2 + 1 ≤ 4` and `1 + 1 ≤ 4`). -/
theorem bin_pack_no_split_witness :
    (∀ a ∈ [[5, 6], [7]], List.length a + 1 ≤ 4) ∧
      ((∀ b ∈ binsOf 4 0 [[5, 6], [7]], b.length ≤ 4) ∧
        (binsOf 4 0 [[5, 6], [7]]).flatten =
          ([[5, 6], [7]].map (fun a => a ++ [0])).flatten ∧
        (∀ (docs' : List (List Nat)) (a : List Nat),
          binsOf 4 0 (docs' ++ [a]) =
            if binsOf 4 0 docs' = []
                ∨ 4 < ((binsOf 4 0 docs').getLastD []).length + a.length + 1
            then binsOf 4 0 docs' ++ [a ++ [0]]
            else (binsOf 4 0 docs').dropLast ++
              [(binsOf 4 0 docs').getLastD [] ++ a ++ [0]])) :=
  ⟨by decide, bin_pack_no_split 4 0 [[5, 6], [7]] (by decide)⟩

/-! ## Batch stream lemmas -/

theorem chunkFuel_length {α : Type} (bs : Nat) :
    ∀ (fuel : Nat) (rows : List α), rows.length ≤ fuel →
      (chunkFuel bs fuel rows).length = rows.length / bs := by
  intro fuel
  induction fuel with
  | zero =>
    intro rows h
    have hz : rows.length = 0 := by omega
    simp [chunkFuel, hz]
  | succ f ih =>
    intro rows h
    simp only [chunkFuel]
    split
    · next hcond =>
      simp only [List.length_cons]
      rw [ih (rows.drop bs) (by rw [List.length_drop]; omega), List.length_drop]
      conv_rhs => rw [Nat.div_eq]
      rw [if_pos hcond]
    · next hcond =>
      simp only [List.length_nil]
      rw [Nat.div_eq, if_neg hcond]

theorem chunkFuel_mem {α : Type} (bs : Nat) :
    ∀ (fuel : Nat) (rows : List α), ∀ c ∈ chunkFuel bs fuel rows, c.length = bs := by
  intro fuel
  induction fuel with
  | zero => intro rows c hc; simp [chunkFuel] at hc
  | succ f ih =>
    intro rows c hc
    simp only [chunkFuel] at hc
    rcases hcond : decide (0 < bs ∧ bs ≤ rows.length) with _ | _
    · rw [if_neg (of_decide_eq_false hcond)] at hc
      simp at hc
    · have hcond' := of_decide_eq_true hcond
      rw [if_pos hcond'] at hc
      rcases List.mem_cons.mp hc with h' | h'
      · subst h'
        exact List.length_take_of_le hcond'.2
      · exact ih (rows.drop bs) c h'

theorem chunkFuel_get {α : Type} (bs : Nat) :
    ∀ (fuel : Nat) (rows : List α) (i : Nat), rows.length ≤ fuel →
      i < rows.length / bs →
      (chunkFuel bs fuel rows)[i]? = some ((rows.drop (i * bs)).take bs) := by
  intro fuel
  induction fuel with
  | zero =>
    intro rows i h hi
    have hz : rows.length = 0 := by omega
    rw [hz, Nat.zero_div] at hi
    omega
  | succ f ih =>
    intro rows i h hi
    have hcond : 0 < bs ∧ bs ≤ rows.length := by
      by_contra hc
      rw [Nat.div_eq, if_neg hc] at hi
      omega
    simp only [chunkFuel]
    rw [if_pos hcond]
    cases i with
    | zero => simp
    | succ j =>
      have hdiv := Nat.div_eq rows.length bs
      rw [if_pos hcond] at hdiv
      rw [List.getElem?_cons_succ,
        ih (rows.drop bs) j (by rw [List.length_drop]; omega)
          (by rw [List.length_drop]; omega)]
      have harith : bs + j * bs = (j + 1) * bs := by ring
      rw [List.drop_drop, harith]

theorem batchRows_length {α : Type} (bs : Nat) (rows : List α) :
    (batchRows bs rows).length = rows.length / bs :=
  chunkFuel_length bs rows.length rows (Nat.le_refl _)

theorem batchRows_mem {α : Type} (bs : Nat) (rows : List α) :
    ∀ c ∈ batchRows bs rows, c.length = bs :=
  chunkFuel_mem bs rows.length rows

theorem batchRows_get {α : Type} (bs : Nat) (rows : List α) (i : Nat)
    (hi : i < rows.length / bs) :
    (batchRows bs rows)[i]? = some ((rows.drop (i * bs)).take bs) :=
  chunkFuel_get bs rows.length rows i (Nat.le_refl _) hi

/-- Claim C6: for a packed matrix and `batch_size ≥ 1`, the recorded step
count `lambada_n_steps` is `⌊num_bins / batch_size⌋`; the batch stream
partitions the rows into consecutive groups of `batch_size` rows, drops
any short trailing group, yields exactly `n_steps` batches in one pass
(batch `i` being rows `i*batch_size .. (i+1)*batch_size - 1`), and the
repeated stream is periodic with period `n_steps`. -/
theorem lambada_batch_stream (rows : List (List Nat)) (bs : Nat) (_hbs : 1 ≤ bs) :
    lambada_n_steps rows bs = (batchRows bs rows).length ∧
      (∀ c ∈ batchRows bs rows, c.length = bs) ∧
      (∀ i, i < lambada_n_steps rows bs →
        (batchRows bs rows)[i]? = some ((rows.drop (i * bs)).take bs)) ∧
      (∀ k, repeatStream (batchRows bs rows) (k + lambada_n_steps rows bs) =
        repeatStream (batchRows bs rows) k) := by
  have hlen : lambada_n_steps rows bs = (batchRows bs rows).length :=
    (batchRows_length bs rows).symm
  refine ⟨hlen, batchRows_mem bs rows, fun i hi => batchRows_get bs rows i hi, fun k => ?_⟩
  unfold repeatStream
  rw [hlen, Nat.add_mod_right]

/-- Witness for C6 at three rows and `batch_size = 2`: one full batch, the
trailing single row dropped. -/
theorem lambada_batch_stream_witness :
    1 ≤ 2 ∧
      (lambada_n_steps [[1], [2], [3]] 2 = (batchRows 2 [[1], [2], [3]]).length ∧
        (∀ c ∈ batchRows 2 [[1], [2], [3]], c.length = 2) ∧
        (∀ i, i < lambada_n_steps [[1], [2], [3]] 2 →
          (batchRows 2 [[1], [2], [3]])[i]? =
            some (([[1], [2], [3]].drop (i * 2)).take 2)) ∧
        (∀ k, repeatStream (batchRows 2 [[1], [2], [3]])
            (k + lambada_n_steps [[1], [2], [3]] 2) =
          repeatStream (batchRows 2 [[1], [2], [3]]) k)) :=
  ⟨by decide, lambada_batch_stream [[1], [2], [3]] 2 (by decide)⟩

-- Sanity examples (spec §8 scenario): docs [[5,6],[7]], n_ctx 4, eos 0, pad 1.
example : binsOf 4 0 [[5, 6], [7]] = [[5, 6, 0], [7, 0]] := by decide
example : bin_pack 0 4 1 [[5, 6], [7]] = some [[5, 6, 0, 1], [7, 0, 1, 1]] := by decide
example : getOutput 4 50256 [5, 0, 1, 1] = [50256, 50256, 50256, 50256] := by decide
example : getOutput 4 0 [5, 0, 1, 1] = [0, 0, 0, 5] := by decide
example : batchRows 2 [[1], [2], [3]] = [[[1], [2]]] := by decide
